import Mathlib

/-!
Verification of the bcard business-card generator (`generate.py`).

The Python source is shallowly embedded below: the JSON record becomes the
`Record` structure (Python `dict.get` on a missing key yielding `None` is
modelled by `Option String`), string-manipulating functions become Lean
functions on `String` / `List Char`, and the external collaborators
(filesystem, JSON parser, QR + PNG rendering) become explicit function
parameters.
-/

namespace BCard

/-- Model of the JSON business-card record.  Each key of the Python dict is
an `Option String`: `none` models an absent key, `some s` a present key with
string value `s` (Python truthiness of a present empty string is handled by
`truthy`). -/
structure Record where
  name : Option String
  title : Option String
  company : Option String
  phone : Option String
  email : Option String
  website : Option String
  linkedin : Option String
  github : Option String
  twitter : Option String

/-- Python truthiness of `data.get(key)`: `None` and `""` are falsy. -/
def truthy : Option String → Bool
  | none => false
  | some s => !(s == "")

/-- Replacement of every occurrence of the character `old` by the character
list `new`, modelling Python `str.replace` for a single-character needle. -/
def replaceChar (old : Char) (new : List Char) : List Char → List Char
  | [] => []
  | c :: rest => (if c = old then new else [c]) ++ replaceChar old new rest

/-- Embedding of `escape_vcard`: guard on falsy input, then the three
sequential replacements of the source, backslash first. -/
def escape_vcard (text : String) : String :=
  if text = "" then ""
  else
    ⟨replaceChar ',' ['\\', ','] (replaceChar ';' ['\\', ';']
      (replaceChar '\\' ['\\', '\\'] text.data))⟩

/-- Embedding of `generate_vcard` up to the final `"\n".join`: the list of
vCard lines, built in the order of the source's `lines.append` calls. -/
def vcard_lines (data : Record) : List String :=
  let name := data.name.getD "Unknown"
  let l0 : List String := ["BEGIN:VCARD", "VERSION:3.0"]
  let l1 := l0 ++ ["FN:" ++ escape_vcard name]
  let l2 := l1 ++ ["N:" ++ escape_vcard name ++ ";;;"]
  let l3 := if truthy data.title then l2 ++ ["TITLE:" ++ escape_vcard (data.title.getD "")] else l2
  let l4 := if truthy data.company then l3 ++ ["ORG:" ++ escape_vcard (data.company.getD "")] else l3
  let l5 := if truthy data.phone then l4 ++ ["TEL;TYPE=WORK:" ++ escape_vcard (data.phone.getD "")] else l4
  let l6 := if truthy data.email then l5 ++ ["EMAIL;TYPE=INTERNET:" ++ escape_vcard (data.email.getD "")] else l5
  let l7 := if truthy data.website then l6 ++ ["URL:" ++ escape_vcard (data.website.getD "")] else l6
  let l8 := if truthy data.linkedin then l7 ++ ["URL;X-LABEL=LinkedIn:" ++ escape_vcard (data.linkedin.getD "")] else l7
  let l9 := if truthy data.github then l8 ++ ["URL;X-LABEL=GitHub:" ++ escape_vcard (data.github.getD "")] else l8
  let l10 := if truthy data.twitter then l9 ++ ["URL;X-LABEL=Twitter:" ++ escape_vcard (data.twitter.getD "")] else l9
  l10 ++ ["END:VCARD"]

/-- Embedding of `generate_vcard`: the joined vCard text. -/
def generate_vcard (data : Record) : String :=
  String.intercalate "\n" (vcard_lines data)

/-- Modelled from the spec: an optional-field line of the serialized contact
block, present exactly when the field is non-empty. -/
def optLine (pre : String) (v : Option String) : List String :=
  match v with
  | none => []
  | some s => if s = "" then [] else [pre ++ escape_vcard s]

/-- Modelled from the spec: the fixed field order of the serialized contact
block (sentinel start, version marker, full name, structured name with three
empty components, the nine optional fields with their tags, sentinel end). -/
def spec_contact_block (r : Record) : List String :=
  ["BEGIN:VCARD", "VERSION:3.0"]
    ++ ["FN:" ++ escape_vcard (r.name.getD "Unknown")]
    ++ ["N:" ++ escape_vcard (r.name.getD "Unknown") ++ ";;;"]
    ++ optLine "TITLE:" r.title
    ++ optLine "ORG:" r.company
    ++ optLine "TEL;TYPE=WORK:" r.phone
    ++ optLine "EMAIL;TYPE=INTERNET:" r.email
    ++ optLine "URL:" r.website
    ++ optLine "URL;X-LABEL=LinkedIn:" r.linkedin
    ++ optLine "URL;X-LABEL=GitHub:" r.github
    ++ optLine "URL;X-LABEL=Twitter:" r.twitter
    ++ ["END:VCARD"]

theorem opt_append (acc : List String) (pre : String) (v : Option String) :
    (if truthy v then acc ++ [pre ++ escape_vcard (v.getD "")] else acc)
      = acc ++ optLine pre v := by
  match v with
  | none => simp [truthy, optLine]
  | some s =>
    by_cases hs : s = "" <;> simp [truthy, optLine, hs]

theorem vcard_lines_eq (r : Record) : vcard_lines r = spec_contact_block r := by
  simp only [vcard_lines, spec_contact_block, opt_append]

/-- Spec-side notion of an absent-or-empty optional field. -/
def blank (o : Option String) : Prop := o = none ∨ o = some ""

theorem blank_optLine (pre : String) {o : Option String} (h : blank o) :
    optLine pre o = [] := by
  rcases h with h | h <;> simp [h, optLine]

/-- Per-character action of the three sequential replacements of
`escape_vcard`. -/
def escChar (c : Char) : List Char :=
  if c = '\\' then ['\\', '\\']
  else if c = ';' then ['\\', ';']
  else if c = ',' then ['\\', ',']
  else [c]

/-- Character-list escape, one character at a time. -/
def escList : List Char → List Char
  | [] => []
  | c :: rest => escChar c ++ escList rest

theorem replaceChar_append (old : Char) (new a b : List Char) :
    replaceChar old new (a ++ b) = replaceChar old new a ++ replaceChar old new b := by
  induction a with
  | nil => rfl
  | cons c rest ih => simp [replaceChar, ih]

theorem escape_eq_escList (l : List Char) :
    replaceChar ',' ['\\', ','] (replaceChar ';' ['\\', ';']
      (replaceChar '\\' ['\\', '\\'] l)) = escList l := by
  induction l with
  | nil => rfl
  | cons c rest ih =>
    by_cases h1 : c = '\\'
    · subst h1
      simp [replaceChar, escList, escChar, replaceChar_append, ih]
    · by_cases h2 : c = ';'
      · subst h2
        simp [replaceChar, escList, escChar, replaceChar_append, ih]
      · by_cases h3 : c = ','
        · subst h3
          simp [replaceChar, escList, escChar, replaceChar_append, ih]
        · simp [replaceChar, escList, escChar, replaceChar_append, h1, h2, h3, ih]

/-- Inverse unescape rule on character lists: a backslash followed by a
character stands for that character. -/
def unescapeList : List Char → List Char
  | [] => []
  | [c] => [c]
  | c :: d :: rest =>
    if c = '\\' then d :: unescapeList rest
    else c :: unescapeList (d :: rest)

/-- Inverse unescape rule on strings. -/
def unescape_vcard (text : String) : String := ⟨unescapeList text.data⟩

theorem unescapeList_bs (d : Char) (l : List Char) :
    unescapeList ('\\' :: d :: l) = d :: unescapeList l := by
  simp [unescapeList]

theorem unescapeList_cons_ne {c : Char} (h : ¬c = '\\') :
    ∀ l, unescapeList (c :: l) = c :: unescapeList l
  | [] => by simp [unescapeList]
  | d :: rest => by simp [unescapeList, h]

theorem unescape_escList (l : List Char) : unescapeList (escList l) = l := by
  induction l with
  | nil => rfl
  | cons c rest ih =>
    by_cases h1 : c = '\\'
    · subst h1
      simp [escList, escChar, unescapeList_bs, ih]
    · by_cases h2 : c = ';'
      · subst h2
        simp [escList, escChar, unescapeList_bs, ih]
      · by_cases h3 : c = ','
        · subst h3
          simp [escList, escChar, unescapeList_bs, ih]
        · simp [escList, escChar, unescapeList_cons_ne h1, h1, h2, h3, ih]

/-- C2: applying `escape_vcard` to a field value containing a backslash,
semicolon, or comma and then the inverse unescape rule reproduces the
original value. -/
theorem claim_C2_escape_roundtrip (s : String)
    (h : ∃ c ∈ s.data, c = '\\' ∨ c = ';' ∨ c = ',') :
    unescape_vcard (escape_vcard s) = s := by
  have hne : s ≠ "" := by
    rintro rfl
    rcases h with ⟨c, hc, -⟩
    simp at hc
  rw [escape_vcard, if_neg hne, unescape_vcard]
  show (⟨unescapeList (replaceChar ',' ['\\', ','] (replaceChar ';' ['\\', ';']
    (replaceChar '\\' ['\\', '\\'] s.data)))⟩ : String) = s
  rw [escape_eq_escList, unescape_escList]

theorem claim_C2_witness :
    unescape_vcard (escape_vcard "a\\b;c,d") = "a\\b;c,d" :=
  claim_C2_escape_roundtrip "a\\b;c,d" (by decide)

/-- C1: a record in which only the name is set (every optional field absent
or empty) serializes to exactly the sentinel start line, the version line,
the full-name line, the structured-name line, and the sentinel end line. -/
theorem claim_C1_minimal_record_block (r : Record) (n : String)
    (hn : r.name = some n)
    (h1 : blank r.title) (h2 : blank r.company) (h3 : blank r.phone)
    (h4 : blank r.email) (h5 : blank r.website) (h6 : blank r.linkedin)
    (h7 : blank r.github) (h8 : blank r.twitter) :
    generate_vcard r = String.intercalate "\n"
      ["BEGIN:VCARD", "VERSION:3.0", "FN:" ++ escape_vcard n,
        "N:" ++ escape_vcard n ++ ";;;", "END:VCARD"] := by
  rw [generate_vcard, vcard_lines_eq]
  simp only [spec_contact_block, hn, Option.getD_some]
  rw [blank_optLine _ h1, blank_optLine _ h2, blank_optLine _ h3,
    blank_optLine _ h4, blank_optLine _ h5, blank_optLine _ h6,
    blank_optLine _ h7, blank_optLine _ h8]
  simp

theorem claim_C1_witness :
    generate_vcard (Record.mk (some "Jane Doe") none none none none none none none none)
      = String.intercalate "\n"
        ["BEGIN:VCARD", "VERSION:3.0", "FN:" ++ escape_vcard "Jane Doe",
          "N:" ++ escape_vcard "Jane Doe" ++ ";;;", "END:VCARD"] :=
  claim_C1_minimal_record_block _ "Jane Doe" rfl (Or.inl rfl) (Or.inl rfl)
    (Or.inl rfl) (Or.inl rfl) (Or.inl rfl) (Or.inl rfl) (Or.inl rfl) (Or.inl rfl)

/-- C3: for every record the serialized contact block lists the lines in the
fixed order given by `spec_contact_block`: sentinel start, version, full
name, structured name with three empty components, then the nine optional
fields (each present exactly when non-empty) with phone tagged as a work
number, email as an internet address, and each social link with its platform
label, then sentinel end. -/
theorem claim_C3_field_order (r : Record) :
    vcard_lines r = spec_contact_block r :=
  vcard_lines_eq r

/-- C7: the serialized block always contains a full-name line; it carries
the record's name when one is present and the `Unknown` placeholder when the
name is absent. -/
theorem claim_C7_fullname_line (r : Record) :
    ("FN:" ++ escape_vcard (r.name.getD "Unknown")) ∈ vcard_lines r ∧
    (∀ n, r.name = some n → ("FN:" ++ escape_vcard n) ∈ vcard_lines r) ∧
    (r.name = none → "FN:Unknown" ∈ vcard_lines r) := by
  have hu : ("FN:" ++ escape_vcard "Unknown" : String) = "FN:Unknown" := by decide
  refine ⟨?_, ?_, ?_⟩
  · rw [vcard_lines_eq]
    simp [spec_contact_block]
  · intro n hn
    rw [vcard_lines_eq]
    simp [spec_contact_block, hn]
  · intro hn
    rw [vcard_lines_eq]
    simp [spec_contact_block, hn, hu]

/-- Characters kept by the `re.sub(r"[^a-z0-9 _]+", "", text)` deletion in
`slugify_name`, written in the style of the core `Char` classifiers. -/
def isSlugChar (c : Char) : Bool :=
  (c.val ≥ 97 && c.val ≤ 122) || (c.val ≥ 48 && c.val ≤ 57) || c == ' ' || c == '_'

/-- Embedding of `text.replace(" ", "_")` at the character level. -/
def spaceToUnderscore (c : Char) : Char := if c == ' ' then '_' else c

/-- Embedding of `re.sub(r"_+", "_", text)`: every run of consecutive
underscores becomes a single underscore. -/
def collapse : List Char → List Char
  | [] => []
  | [c] => [c]
  | c1 :: c2 :: rest =>
    if c1 = '_' && c2 = '_' then collapse (c2 :: rest)
    else c1 :: collapse (c2 :: rest)

/-- Underscore test used by the strip step. -/
def pUnd (c : Char) : Bool := c == '_'

/-- Embedding of `.strip("_")`: drop leading underscores, then trailing
ones. -/
def strip_underscores (l : List Char) : List Char :=
  List.rdropWhile pUnd (l.dropWhile pUnd)

/-- Embedding of `slugify_name`: guard on falsy input, lowercase, delete
characters outside `[a-z0-9 _]`, spaces to underscores, collapse underscore
runs, strip leading and trailing underscores. -/
def slugify_name (value : String) : String :=
  if value = "" then ""
  else
    ⟨strip_underscores (collapse
      (((value.data.map Char.toLower).filter isSlugChar).map spaceToUnderscore))⟩

/-- Embedding of the base-name fallback chain in `main`: the slug of the
record's name, else the slug of the input filename stem, else `card`. -/
def choose_base_name (name : Option String) (stem : String) : String :=
  let base1 := slugify_name (name.getD "")
  let base2 := if base1 = "" then slugify_name stem else base1
  if base2 = "" then "card" else base2

/-- Characters that can occur in a slug after the space replacement:
slug characters other than the space. -/
def goodChar (c : Char) : Bool := isSlugChar c && !(c == ' ')

theorem toLower_fix {c : Char} (h : isSlugChar c = true) : Char.toLower c = c := by
  simp only [isSlugChar, Bool.or_eq_true, Bool.and_eq_true, decide_eq_true_eq,
    beq_iff_eq] at h
  rcases h with ((⟨h1, h2⟩ | ⟨h1, h2⟩) | rfl) | rfl
  · have n1 : 97 ≤ c.toNat := UInt32.le_toNat_of_le (by decide) h1
    have n2 : c.toNat ≤ 122 := UInt32.toNat_le_of_le (by decide) h2
    simp only [Char.toLower]
    rw [if_neg (by omega)]
  · have n1 : 48 ≤ c.toNat := UInt32.le_toNat_of_le (by decide) h1
    have n2 : c.toNat ≤ 57 := UInt32.toNat_le_of_le (by decide) h2
    simp only [Char.toLower]
    rw [if_neg (by omega)]
  · decide
  · decide

theorem spaceToUnderscore_fix {c : Char} (h : ¬c = ' ') :
    spaceToUnderscore c = c := by
  simp [spaceToUnderscore, h]

theorem goodChar_split {c : Char} (h : goodChar c = true) :
    isSlugChar c = true ∧ ¬c = ' ' := by
  simpa [goodChar] using h

theorem t3_good {l : List Char} :
    ∀ c ∈ (l.filter isSlugChar).map spaceToUnderscore, goodChar c = true := by
  intro c hc
  rw [List.mem_map] at hc
  obtain ⟨c', hc', rfl⟩ := hc
  rw [List.mem_filter] at hc'
  by_cases hsp : c' = ' '
  · subst hsp
    decide
  · rw [spaceToUnderscore_fix hsp]
    simp [goodChar, hc'.2, hsp]

theorem collapse_head : ∀ (c : Char) (l : List Char),
    (collapse (c :: l)).head? = some c
  | _, [] => by simp [collapse]
  | c1, c2 :: rest => by
    by_cases h : (c1 = '_' && c2 = '_') = true
    · simp only [Bool.and_eq_true, decide_eq_true_eq] at h
      obtain ⟨hc1, hc2⟩ := h
      subst hc1
      subst hc2
      simp only [collapse, if_pos (by decide : (('_' : Char) = '_' && ('_' : Char) = '_') = true)]
      exact collapse_head '_' rest
    · simp only [collapse, if_neg h, List.head?_cons]

theorem collapse_subset : ∀ (l : List Char), ∀ c ∈ collapse l, c ∈ l
  | [] => by simp [collapse]
  | [a] => by simp [collapse]
  | c1 :: c2 :: rest => by
    intro c hc
    have ih := collapse_subset (c2 :: rest)
    by_cases h : (c1 = '_' && c2 = '_') = true
    · simp only [collapse, if_pos h] at hc
      exact List.mem_cons_of_mem _ (ih c hc)
    · simp only [collapse, if_neg h] at hc
      rcases List.mem_cons.mp hc with rfl | hc
      · exact List.mem_cons_self _ _
      · exact List.mem_cons_of_mem _ (ih c hc)

/-- Absence of two adjacent underscores. -/
def noAdjUnd (l : List Char) : Prop :=
  List.Chain' (fun a b => ¬(a = '_' ∧ b = '_')) l

theorem collapse_chain : ∀ (l : List Char), noAdjUnd (collapse l)
  | [] => by simp [collapse, noAdjUnd]
  | [a] => by simp [collapse, noAdjUnd]
  | c1 :: c2 :: rest => by
    have ih := collapse_chain (c2 :: rest)
    by_cases h : (c1 = '_' && c2 = '_') = true
    · simpa only [noAdjUnd, collapse, if_pos h] using ih
    · simp only [noAdjUnd, collapse, if_neg h]
      rw [List.chain'_cons']
      refine ⟨?_, ih⟩
      intro y hy
      rw [collapse_head c2 rest] at hy
      cases hy
      intro hcon
      exact h (by simp [hcon.1, hcon.2])

theorem collapse_of_chain : ∀ (l : List Char), noAdjUnd l → collapse l = l
  | [], _ => by simp [collapse]
  | [a], _ => by simp [collapse]
  | c1 :: c2 :: rest, h => by
    rw [noAdjUnd, List.chain'_cons'] at h
    have h12 : ¬(c1 = '_' ∧ c2 = '_') := h.1 c2 rfl
    have ih := collapse_of_chain (c2 :: rest) h.2
    have hb : ¬((c1 = '_' && c2 = '_') = true) := by
      simpa [Bool.and_eq_true, decide_eq_true_eq] using h12
    simp [collapse, hb, ih]

theorem head_dropWhile_fail {p : Char → Bool} {l : List Char} {a : Char}
    (h : (l.dropWhile p).head? = some a) : p a = false := by
  have := List.head?_dropWhile_not p l
  rw [h] at this
  exact this

theorem dropWhile_of_head_fail {p : Char → Bool} {l : List Char}
    (h : ∀ a, l.head? = some a → p a = false) : l.dropWhile p = l := by
  cases l with
  | nil => rfl
  | cons a t =>
    have := h a rfl
    simp [List.dropWhile_cons, this]

theorem ldrop_decomp (p : Char → Bool) (l : List Char) :
    ∃ t, l = t ++ l.dropWhile p :=
  ⟨l.takeWhile p, (List.takeWhile_append_dropWhile p l).symm⟩

theorem rdrop_decomp (p : Char → Bool) (l : List Char) :
    ∃ t, l = List.rdropWhile p l ++ t := by
  refine ⟨(l.reverse.takeWhile p).reverse, ?_⟩
  simp only [List.rdropWhile]
  rw [← List.reverse_append, List.takeWhile_append_dropWhile, List.reverse_reverse]

theorem strip_sub (l : List Char) : ∀ c ∈ strip_underscores l, c ∈ l := by
  intro c hc
  obtain ⟨t1, ht1⟩ := ldrop_decomp pUnd l
  obtain ⟨t2, ht2⟩ := rdrop_decomp pUnd (l.dropWhile pUnd)
  rw [strip_underscores] at hc
  rw [ht1, ht2]
  exact List.mem_append_right _ (List.mem_append_left _ hc)

theorem strip_chain {l : List Char} (h : noAdjUnd l) :
    noAdjUnd (strip_underscores l) := by
  obtain ⟨t1, ht1⟩ := ldrop_decomp pUnd l
  obtain ⟨t2, ht2⟩ := rdrop_decomp pUnd (l.dropWhile pUnd)
  rw [noAdjUnd] at h ⊢
  rw [ht1] at h
  have h2 := (List.chain'_append.mp h).2.1
  rw [ht2] at h2
  exact (List.chain'_append.mp h2).1

theorem strip_idem (l : List Char) :
    strip_underscores (strip_underscores l) = strip_underscores l := by
  rw [strip_underscores, strip_underscores]
  have hd : (List.rdropWhile pUnd (l.dropWhile pUnd)).dropWhile pUnd
      = List.rdropWhile pUnd (l.dropWhile pUnd) := by
    apply dropWhile_of_head_fail
    intro a ha
    obtain ⟨t2, ht2⟩ := rdrop_decomp pUnd (l.dropWhile pUnd)
    have hhead : (l.dropWhile pUnd).head? = some a := by
      rw [ht2]
      cases hrs : List.rdropWhile pUnd (l.dropWhile pUnd) with
      | nil => rw [hrs] at ha; cases ha
      | cons b s =>
        rw [hrs] at ha
        cases ha
        simp
    exact head_dropWhile_fail hhead
  rw [hd, List.rdropWhile_idempotent]

theorem slug_data (x : String) (hx : ¬x = "") :
    (slugify_name x).data
      = strip_underscores (collapse
          (((x.data.map Char.toLower).filter isSlugChar).map spaceToUnderscore)) := by
  rw [slugify_name, if_neg hx]

theorem slug_chars_good (x : String) :
    ∀ c ∈ (slugify_name x).data, goodChar c = true := by
  by_cases hx : x = ""
  · subst hx
    intro c hc
    simp [slugify_name] at hc
  · intro c hc
    rw [slug_data x hx] at hc
    exact t3_good c (collapse_subset _ c (strip_sub _ c hc))

theorem slug_chain (x : String) : noAdjUnd (slugify_name x).data := by
  by_cases hx : x = ""
  · subst hx
    simp [slugify_name, noAdjUnd]
  · rw [slug_data x hx]
    exact strip_chain (collapse_chain _)

theorem slug_strip_fix (x : String) :
    strip_underscores (slugify_name x).data = (slugify_name x).data := by
  by_cases hx : x = ""
  · subst hx
    rfl
  · rw [slug_data x hx]
    exact strip_idem _

theorem slugify_name_idem (x : String) :
    slugify_name (slugify_name x) = slugify_name x := by
  by_cases hx : slugify_name x = ""
  · rw [hx]
    rfl
  · rw [slugify_name, if_neg hx]
    have hg := slug_chars_good x
    have hmap1 : (slugify_name x).data.map Char.toLower = (slugify_name x).data := by
      rw [List.map_congr_left fun c hc => toLower_fix (goodChar_split (hg c hc)).1]
      simp
    have hfil : (slugify_name x).data.filter isSlugChar = (slugify_name x).data :=
      List.filter_eq_self.mpr fun c hc => (goodChar_split (hg c hc)).1
    have hmap2 : (slugify_name x).data.map spaceToUnderscore = (slugify_name x).data := by
      rw [List.map_congr_left fun c hc =>
        spaceToUnderscore_fix (goodChar_split (hg c hc)).2]
      simp
    rw [hmap1, hfil, hmap2, collapse_of_chain _ (slug_chain x), slug_strip_fix x]

/-- Modelled from the spec: keep only lowercase letters, digits, space, and
underscore. -/
def specKeep (c : Char) : Bool := c.isLower || c.isDigit || c == ' ' || c == '_'

/-- Modelled from the spec: collapse each run of underscores to one. -/
def collapseRunsSpec (l : List Char) : List Char :=
  l.foldr (fun c acc => if c == '_' && acc.head? == some '_' then acc else c :: acc) []

/-- Modelled from the spec: trim leading and trailing underscores. -/
def trimSpec (l : List Char) : List Char :=
  ((l.dropWhile fun c => c == '_').reverse.dropWhile fun c => c == '_').reverse

/-- Modelled from the spec: lowercase, strip characters that are not
lowercase letters, digits, space, or underscore, replace spaces with
underscores, collapse underscore runs, trim leading/trailing underscores. -/
def slug_spec (value : String) : String :=
  ⟨trimSpec (collapseRunsSpec (((value.data.map Char.toLower).filter specKeep).map
    fun c => if c == ' ' then '_' else c))⟩

theorem collapseRunsSpec_cons (c : Char) (l : List Char) :
    collapseRunsSpec (c :: l)
      = if c == '_' && (collapseRunsSpec l).head? == some '_' then collapseRunsSpec l
        else c :: collapseRunsSpec l := rfl

theorem collapse_eq_spec : ∀ l, collapseRunsSpec l = collapse l
  | [] => rfl
  | [a] => by
    simp [collapseRunsSpec, collapse]
  | c1 :: c2 :: rest => by
    have ih := collapse_eq_spec (c2 :: rest)
    rw [collapseRunsSpec_cons, ih, collapse_head c2 rest]
    by_cases h1 : c1 = '_' <;> by_cases h2 : c2 = '_' <;> simp [collapse, h1, h2]

theorem trimSpec_eq (l : List Char) : trimSpec l = strip_underscores l := rfl

theorem slug_spec_eq (v : String) : slugify_name v = slug_spec v := by
  by_cases hv : v = ""
  · subst hv
    rfl
  · rw [slugify_name, if_neg hv]
    simp only [slug_spec]
    have h1 : (fun c => if c == ' ' then '_' else c) = spaceToUnderscore := rfl
    have h2 : specKeep = isSlugChar := funext fun _ => rfl
    rw [h1, h2, collapse_eq_spec, trimSpec_eq]

/-- C4: the output base name is the spec's slug of the record's name
(lowercase, strip characters outside lowercase letters/digits/space/
underscore, spaces to underscores, collapse underscore runs, trim
underscores), falling back to the slugified input filename stem and then to
the fixed name `card` when the slug is empty. -/
theorem claim_C4_basename_derivation :
    (∀ v : String, slugify_name v = slug_spec v) ∧
    ∀ (name : Option String) (stem : String),
      choose_base_name name stem
        = (if slug_spec (name.getD "") = "" then
            (if slug_spec stem = "" then "card" else slug_spec stem)
          else slug_spec (name.getD "")) := by
  refine ⟨slug_spec_eq, ?_⟩
  intro name stem
  rw [← slug_spec_eq, ← slug_spec_eq]
  simp only [choose_base_name]
  by_cases h1 : slugify_name (name.getD "") = "" <;>
    by_cases h2 : slugify_name stem = "" <;> simp [h1, h2]

/-- C6: `slugify_name` is idempotent, the slug of the empty string is the
empty string, and an empty slug triggers the filename fallback chain. -/
theorem claim_C6_slugify_idempotent :
    (∀ x : String, slugify_name (slugify_name x) = slugify_name x) ∧
    slugify_name "" = "" ∧
    ∀ stem : String, choose_base_name (some "") stem
      = (if slugify_name stem = "" then "card" else slugify_name stem) := by
  refine ⟨slugify_name_idem, rfl, ?_⟩
  intro stem
  simp only [choose_base_name, Option.getD_some]
  have h0 : slugify_name "" = "" := rfl
  rw [h0]
  simp

/-- Decimal digit character. -/
def digitChar (d : Nat) : Char := Char.ofNat (48 + d)

/-- Decimal digit expansion, most significant digit first, with a fuel
argument for structural recursion; any `fuel ≥ n` yields the digits of
`n`. -/
def toDigitsAux : Nat → Nat → List Char
  | 0, _ => []
  | _ + 1, 0 => []
  | fuel + 1, n + 1 => toDigitsAux fuel ((n + 1) / 10) ++ [digitChar ((n + 1) % 10)]

/-- Decimal representation of a natural number, as produced by Python's
string formatting of the loop index. -/
def natRepr (n : Nat) : String := if n = 0 then "0" else ⟨toDigitsAux n n⟩

/-- Decimal value of a digit string, used to invert `natRepr`. -/
def digitsVal (l : List Char) : Nat :=
  l.foldl (fun acc c => 10 * acc + (c.toNat - 48)) 0

theorem digitChar_toNat {r : Nat} (h : r < 10) : (digitChar r).toNat = 48 + r := by
  interval_cases r <;> decide

theorem foldl_toDigitsAux : ∀ (fuel n acc : Nat), n ≤ fuel →
    List.foldl (fun acc c => 10 * acc + (c.toNat - 48)) acc (toDigitsAux fuel n)
      = acc * 10 ^ (toDigitsAux fuel n).length + n
  | 0, n, acc, h => by
    have hn : n = 0 := by omega
    subst hn
    simp [toDigitsAux]
  | fuel + 1, 0, acc, _ => by simp [toDigitsAux]
  | fuel + 1, n + 1, acc, h => by
    have hdiv : (n + 1) / 10 ≤ fuel := by
      have h1 : (n + 1) / 10 < n + 1 := Nat.div_lt_self (by omega) (by omega)
      omega
    have ih := foldl_toDigitsAux fuel ((n + 1) / 10) acc hdiv
    have hmod : (n + 1) % 10 < 10 := Nat.mod_lt _ (by omega)
    simp only [toDigitsAux, List.foldl_append, ih, List.foldl_cons, List.foldl_nil,
      digitChar_toNat hmod, List.length_append, List.length_cons, List.length_nil]
    rw [pow_succ, ← mul_assoc]
    omega

theorem digitsVal_natRepr (n : Nat) : digitsVal (natRepr n).data = n := by
  by_cases h : n = 0
  · subst h
    decide
  · rw [natRepr, if_neg h]
    have := foldl_toDigitsAux n n 0 le_rfl
    simpa [digitsVal] using this

theorem natRepr_data_inj {a b : Nat} (h : (natRepr a).data = (natRepr b).data) :
    a = b := by
  have := congrArg digitsVal h
  rwa [digitsVal_natRepr, digitsVal_natRepr] at this

theorem data_append (a b : String) : (a ++ b).data = a.data ++ b.data := rfl

/-- Candidate output filename with a numeric suffix, as built by the
f-string in `choose_output_path`. -/
def candName (base : String) (i : Nat) : String :=
  base ++ "-" ++ natRepr i ++ ".html"

theorem candName_inj (base : String) {i j : Nat}
    (h : candName base i = candName base j) : i = j := by
  have hd := congrArg String.data h
  simp only [candName, data_append, List.append_assoc] at hd
  have h1 := List.append_cancel_left hd
  have h2 := List.append_cancel_left h1
  have h3 := List.append_cancel_right h2
  exact natRepr_data_inj h3

theorem exists_free (existing : List String) (base : String) :
    ∃ n, candName base (n + 2) ∉ existing := by
  by_contra hcon
  push_neg at hcon
  have hnodup : ((List.range (existing.length + 1)).map
      fun i => candName base (i + 2)).Nodup := by
    refine List.Nodup.map ?_ (List.nodup_range _)
    intro i j hij
    have := candName_inj base hij
    omega
  have hsub : ((List.range (existing.length + 1)).map
      fun i => candName base (i + 2)) ⊆ existing := by
    intro s hs
    rw [List.mem_map] at hs
    obtain ⟨i, -, rfl⟩ := hs
    exact hcon i
  have hle := (List.subperm_of_subset hnodup hsub).length_le
  simp only [List.length_map, List.length_range] at hle
  omega

/-- Embedding of `choose_output_path`: the plain name if free, otherwise the
first free candidate of the `while True` suffix search, which starts at
index 2.  The unbounded loop is modelled as the least free index, whose
existence is the pigeonhole fact `exists_free`. -/
def choose_output_path (existing : List String) (base : String) : String :=
  if base ++ ".html" ∈ existing then
    candName base (Nat.find (exists_free existing base) + 2)
  else base ++ ".html"

/-- C5: the chosen output path never names an existing file; without a
collision the plain base name is used, and on a collision the suffixes
2, 3, … are tried in increasing order and the first free candidate is
returned. -/
theorem claim_C5_collision_policy (existing : List String) (base : String) :
    choose_output_path existing base ∉ existing ∧
    (base ++ ".html" ∉ existing → choose_output_path existing base = base ++ ".html") ∧
    ∀ k, base ++ ".html" ∈ existing → 2 ≤ k →
      (∀ j, 2 ≤ j → j < k → candName base j ∈ existing) →
      candName base k ∉ existing →
      choose_output_path existing base = candName base k := by
  refine ⟨?_, ?_, ?_⟩
  · by_cases h : base ++ ".html" ∈ existing
    · rw [choose_output_path, if_pos h]
      exact Nat.find_spec (exists_free existing base)
    · rw [choose_output_path, if_neg h]
      exact h
  · intro h
    rw [choose_output_path, if_neg h]
  · intro k hmem hk2 hall hkfree
    rw [choose_output_path, if_pos hmem]
    have hle : Nat.find (exists_free existing base) ≤ k - 2 := by
      refine Nat.find_min' _ ?_
      have hk : k - 2 + 2 = k := by omega
      rw [hk]
      exact hkfree
    have hge : ¬Nat.find (exists_free existing base) < k - 2 := by
      intro hlt
      have hspec := Nat.find_spec (exists_free existing base)
      exact hspec (hall _ (by omega) (by omega))
    have hfk : Nat.find (exists_free existing base) + 2 = k := by omega
    rw [hfk]

theorem claim_C5_witness :
    choose_output_path ["jane_doe.html", "jane_doe-2.html"] "jane_doe"
      = "jane_doe-3.html" := by
  have h := (claim_C5_collision_policy ["jane_doe.html", "jane_doe-2.html"] "jane_doe").2.2
    3 (by decide) (by decide)
    (fun j h2 h3 => by
      have hj : j = 2 := by omega
      subst hj
      decide)
    (by decide)
  rw [h]
  decide

/-- C10: over any finite list of existing names the suffix search has a free
candidate (the termination argument for the unbounded loop), and the chosen
output path is not among the existing names. -/
theorem claim_C10_search_terminates (existing : List String) (base : String) :
    (∃ n, candName base (n + 2) ∉ existing) ∧
    choose_output_path existing base ∉ existing := by
  refine ⟨exists_free existing base, ?_⟩
  by_cases h : base ++ ".html" ∈ existing
  · rw [choose_output_path, if_pos h]
    exact Nat.find_spec (exists_free existing base)
  · rw [choose_output_path, if_neg h]
    exact h

/-- Load failure conditions of `load_business_card`, distinguished as the
two exception handlers of the source distinguish `FileNotFoundError` and
`json.JSONDecodeError`. -/
inductive LoadError where
  | fileNotFound (msg : String)
  | invalidFormat (msg : String)
deriving DecidableEq

/-- Message printed by the missing-file handler. -/
def msgNotFound (path : String) : String :=
  "Error: JSON file not found at " ++ path

/-- Message printed by the malformed-JSON handler, carrying the parse error
detail. -/
def msgInvalid (path err : String) : String :=
  "Error: Invalid JSON in " ++ path ++ ": " ++ err

/-- Embedding of `load_business_card`.  The filesystem is abstracted as a
partial map `fs` from paths to file contents and the JSON parser as
`parse`; each handler's print-and-`sys.exit(1)` is modelled as an error
value carrying the failure condition with its message and the exit code
1. -/
def load_business_card (fs : String → Option String)
    (parse : String → Except String Record) (json_path : String) :
    Except (LoadError × Nat) Record :=
  match fs json_path with
  | none => Except.error (LoadError.fileNotFound (msgNotFound json_path), 1)
  | some content =>
    match parse content with
    | Except.error e => Except.error (LoadError.invalidFormat (msgInvalid json_path e), 1)
    | Except.ok d => Except.ok d

theorem msgInvalid_inj (path : String) {e1 e2 : String}
    (h : msgInvalid path e1 = msgInvalid path e2) : e1 = e2 := by
  have hd := congrArg String.data h
  simp only [msgInvalid, data_append, List.append_assoc] at hd
  have h1 := List.append_cancel_left hd
  have h2 := List.append_cancel_left h1
  have h3 := List.append_cancel_left h2
  cases e1
  cases e2
  exact congrArg String.mk h3

/-- C8: the loader fails with the file-not-found condition exactly when the
path has no content, fails with the invalid-format condition carrying the
parse error detail exactly when the content does not parse, and every
failure carries the non-zero exit code. -/
theorem claim_C8_load_failures (fs : String → Option String)
    (parse : String → Except String Record) (path : String) :
    (load_business_card fs parse path
        = Except.error (LoadError.fileNotFound (msgNotFound path), 1)
      ↔ fs path = none) ∧
    (∀ e, load_business_card fs parse path
        = Except.error (LoadError.invalidFormat (msgInvalid path e), 1)
      ↔ ∃ c, fs path = some c ∧ parse c = Except.error e) ∧
    (∀ err k, load_business_card fs parse path = Except.error (err, k) → k ≠ 0) := by
  cases hfs : fs path with
  | none =>
    refine ⟨by simp [load_business_card, hfs], ?_, ?_⟩
    · intro e
      simp [load_business_card, hfs]
    · intro err k hk
      simp [load_business_card, hfs] at hk
      omega
  | some c =>
    cases hp : parse c with
    | error e0 =>
      refine ⟨by simp [load_business_card, hfs, hp], ?_, ?_⟩
      · intro e
        simp only [load_business_card, hfs, hp]
        constructor
        · intro he
          simp only [Except.error.injEq, Prod.mk.injEq, LoadError.invalidFormat.injEq,
            and_true] at he
          exact ⟨c, rfl, by rw [hp, msgInvalid_inj path he]⟩
        · rintro ⟨c', hc', hpe⟩
          cases hc'
          rw [hp] at hpe
          cases hpe
          rfl
      · intro err k hk
        simp [load_business_card, hfs, hp] at hk
        omega
    | ok d =>
      refine ⟨by simp [load_business_card, hfs, hp], ?_, ?_⟩
      · intro e
        simp only [load_business_card, hfs, hp]
        constructor
        · intro he
          cases he
        · rintro ⟨c', hc', hpe⟩
          cases hc'
          rw [hp] at hpe
          cases hpe
      · intro err k hk
        simp [load_business_card, hfs, hp] at hk

theorem claim_C8_witness :
    (load_business_card (fun _ => none)
        (fun _ => Except.ok (Record.mk none none none none none none none none none))
        "cards.json"
      = Except.error (LoadError.fileNotFound (msgNotFound "cards.json"), 1)) ∧
    (load_business_card (fun _ => some "not json") (fun _ => Except.error "Expecting value")
        "cards.json"
      = Except.error (LoadError.invalidFormat (msgInvalid "cards.json" "Expecting value"), 1)) :=
  ⟨(claim_C8_load_failures _ _ _).1.mpr rfl,
   ((claim_C8_load_failures _ _ _).2.1 "Expecting value").mpr ⟨"not json", rfl, rfl⟩⟩

/-- Base64 alphabet in index order. -/
def base64Alphabet : List Char :=
  "ABCDEFGHIJKLMNOPQRSTUVWXYZabcdefghijklmnopqrstuvwxyz0123456789+/".data

/-- Character of a six-bit group. -/
def b64char (n : Nat) : Char := base64Alphabet.getD n 'A'

/-- Standard base64 encoding of a byte list with `=` padding, modelling
`base64.b64encode`. -/
def b64encodeList : List Nat → List Char
  | [] => []
  | [b1] => [b64char (b1 / 4), b64char (b1 % 4 * 16), '=', '=']
  | [b1, b2] =>
    [b64char (b1 / 4), b64char (b1 % 4 * 16 + b2 / 16), b64char (b2 % 16 * 4), '=']
  | b1 :: b2 :: b3 :: rest =>
    [b64char (b1 / 4), b64char (b1 % 4 * 16 + b2 / 16), b64char (b2 % 16 * 4 + b3 / 64),
      b64char (b3 % 64)] ++ b64encodeList rest

/-- Base64 encoding as a string. -/
def b64encode (bytes : List Nat) : String := ⟨b64encodeList bytes⟩

/-- Embedding of `generate_qr_code`.  The QR encoding and PNG serialization
(the `qrcode` and PIL collaborators) are abstracted as `png_render`, mapping
the vCard text to PNG bytes; the function wraps their base64 encoding in a
data URI. -/
def generate_qr_code (png_render : String → List Nat) (vcard_data : String) : String :=
  "data:image/png;base64," ++ b64encode (png_render vcard_data)

theorem b64char_mem {n : Nat} (h : n < 64) : b64char n ∈ base64Alphabet := by
  interval_cases n <;> decide

theorem b64encodeList_spec : ∀ (bytes : List Nat), (∀ b ∈ bytes, b < 256) →
    (b64encodeList bytes).length % 4 = 0 ∧
    ∀ c ∈ b64encodeList bytes, c ∈ base64Alphabet ∨ c = '='
  | [], _ => by simp [b64encodeList]
  | [b1], h => by
    have hb1 : b1 < 256 := h b1 (by simp)
    refine ⟨by simp [b64encodeList], ?_⟩
    intro c hc
    simp only [b64encodeList, List.mem_cons, List.not_mem_nil, or_false] at hc
    rcases hc with rfl | rfl | rfl | rfl
    · exact Or.inl (b64char_mem (by omega))
    · exact Or.inl (b64char_mem (by omega))
    · exact Or.inr rfl
    · exact Or.inr rfl
  | [b1, b2], h => by
    have hb1 : b1 < 256 := h b1 (by simp)
    have hb2 : b2 < 256 := h b2 (by simp)
    refine ⟨by simp [b64encodeList], ?_⟩
    intro c hc
    simp only [b64encodeList, List.mem_cons, List.not_mem_nil, or_false] at hc
    rcases hc with rfl | rfl | rfl | rfl
    · exact Or.inl (b64char_mem (by omega))
    · exact Or.inl (b64char_mem (by omega))
    · exact Or.inl (b64char_mem (by omega))
    · exact Or.inr rfl
  | b1 :: b2 :: b3 :: rest, h => by
    have hb1 : b1 < 256 := h b1 (by simp)
    have hb2 : b2 < 256 := h b2 (by simp)
    have hb3 : b3 < 256 := h b3 (by simp)
    have ih := b64encodeList_spec rest fun b hb => h b (by simp [hb])
    constructor
    · simp only [b64encodeList, List.length_append, List.length_cons, List.length_nil]
      omega
    · intro c hc
      simp only [b64encodeList, List.mem_append, List.mem_cons, List.not_mem_nil,
        or_false] at hc
      rcases hc with (rfl | rfl | rfl | rfl) | hc
      · exact Or.inl (b64char_mem (by omega))
      · exact Or.inl (b64char_mem (by omega))
      · exact Or.inl (b64char_mem (by omega))
      · exact Or.inl (b64char_mem (by omega))
      · exact ih.2 c hc

/-- C9: the scannable-code encoder returns the literal
`data:image/png;base64,` followed by the base64 encoding of the PNG bytes;
the payload uses only base64 alphabet characters and padding and has length
divisible by four. -/
theorem claim_C9_data_uri (png_render : String → List Nat) (v : String)
    (h : ∀ b ∈ png_render v, b < 256) :
    generate_qr_code png_render v
      = "data:image/png;base64," ++ b64encode (png_render v) ∧
    (b64encode (png_render v)).length % 4 = 0 ∧
    ∀ c ∈ (b64encode (png_render v)).data, c ∈ base64Alphabet ∨ c = '=' := by
  have hs := b64encodeList_spec (png_render v) h
  exact ⟨rfl, hs.1, hs.2⟩

theorem claim_C9_witness :
    generate_qr_code (fun _ => [137, 80, 78, 71]) "BEGIN:VCARD"
      = "data:image/png;base64," ++ b64encode [137, 80, 78, 71] ∧
    (b64encode ([137, 80, 78, 71] : List Nat)).length % 4 = 0 :=
  ⟨(claim_C9_data_uri (fun _ => [137, 80, 78, 71]) "BEGIN:VCARD" (by decide)).1,
   (claim_C9_data_uri (fun _ => [137, 80, 78, 71]) "BEGIN:VCARD" (by decide)).2.1⟩

theorem claim_C7_witness :
    ("FN:" ++ escape_vcard "Ada")
        ∈ vcard_lines (Record.mk (some "Ada") none none none none none none none none) ∧
    "FN:Unknown" ∈ vcard_lines (Record.mk none none none none none none none none none) :=
  ⟨(claim_C7_fullname_line _).2.1 "Ada" rfl, (claim_C7_fullname_line _).2.2 rfl⟩

end BCard
